import Mathlib

/-!
Verification of the non-parametric score-estimation library.

The library estimates the score function of an unknown density from
samples.  Its shared kernel/Gram-matrix layer supports the
squared-exponential and inverse-multiquadric scalar kernels, optionally
augmented with a linear (dot-product) term.  Points live in `ℝ^d`,
modelled here as `Fin d → ℝ`; a point set is `Fin n → Point d`.
-/

namespace ScoreEstimation

open Real

/-- The scalar kernel families selectable through `kernel_type`. -/
inductive KernelType where
  | se : KernelType
  | imq : KernelType
deriving DecidableEq

/-- Configuration of the shared Gram-matrix layer: the scalar kernel
family and whether the linear (dot-product) kernel is added. -/
structure Config where
  kernelType : KernelType
  addLinearKernel : Bool

/-- A point in `ℝ^d`. -/
abbrev Point (d : ℕ) : Type := Fin d → ℝ

/-- Scaled squared distance `r² = ‖(x − y)/l‖²` used by both kernels. -/
noncomputable def sqDist {d : ℕ} (x y : Point d) (l : ℝ) : ℝ :=
  ∑ c, ((x c - y c) / l) ^ 2

/-- Euclidean dot product of two points. -/
noncomputable def dotProd {d : ℕ} (x y : Point d) : ℝ :=
  ∑ c, x c * y c

/-- The scalar kernel as a function of the scaled squared distance `s`:
`exp (−s/2)` for the squared-exponential family and `(1+s)^(−1/2)`
(computed as `1/√(1+s)`, matching `jax.lax.rsqrt`) for the
inverse-multiquadric family. -/
noncomputable def scalarKernel : KernelType → ℝ → ℝ
  | KernelType.se, s => Real.exp (-s / 2)
  | KernelType.imq, s => 1 / Real.sqrt (1 + s)

/-- Pointwise kernel value of a configured Gram layer, including the
optional linear augmentation. -/
noncomputable def kernelFun {d : ℕ} (cfg : Config) (x y : Point d) (l : ℝ) : ℝ :=
  scalarKernel cfg.kernelType (sqDist x y l) +
    (if cfg.addLinearKernel then dotProd x y else 0)

/-- Modelled from the spec: `GramMatrixMixin.gram` of
`score_estimation/abstract.py` (absent from `src/`).  Per the spec,
`gram(x1, x2, l)` returns the `n×m` matrix with
`K[i,j] = k(x1[i], x2[j])`, plus `x1[i]·x2[j]` when linear augmentation
is enabled. -/
noncomputable def gram {d n m : ℕ} (cfg : Config)
    (x1 : Fin n → Point d) (x2 : Fin m → Point d) (l : ℝ) :
    Fin n → Fin m → ℝ :=
  fun i j => kernelFun cfg (x1 i) (x2 j) l

/-- Derivative of the scalar kernel with respect to the scaled squared
distance `s`: `d/ds exp(−s/2) = −exp(−s/2)/2` and
`d/ds (1+s)^(−1/2) = −(1/2)(1+s)^(−3/2)`. -/
noncomputable def scalarKernelDeriv : KernelType → ℝ → ℝ
  | KernelType.se, s => -Real.exp (-s / 2) / 2
  | KernelType.imq, s => -(1 / (2 * ((1 + s) * Real.sqrt (1 + s))))

/-- Modelled from the spec: `GramMatrixMixin.grad_gram` of
`score_estimation/abstract.py` (absent from `src/`).  Returns
`(K, G1, G2)` where `G1[i,j]`/`G2[i,j]` are the hand-derived closed-form
gradients of the scalar kernel with respect to its first and second
argument (chain rule through `r²`, `∂r²/∂x_c = 2(x_c−y_c)/l²` and
`∂r²/∂y_c = −2(x_c−y_c)/l²`), plus the gradient of the linear term when
enabled. -/
noncomputable def grad_gram {d n m : ℕ} (cfg : Config)
    (x1 : Fin n → Point d) (x2 : Fin m → Point d) (l : ℝ) :
    (Fin n → Fin m → ℝ) × (Fin n → Fin m → Point d) × (Fin n → Fin m → Point d) :=
  (gram cfg x1 x2 l,
   fun i j c =>
     scalarKernelDeriv cfg.kernelType (sqDist (x1 i) (x2 j) l) *
         (2 * (x1 i c - x2 j c) / l ^ 2) +
       (if cfg.addLinearKernel then x2 j c else 0),
   fun i j c =>
     scalarKernelDeriv cfg.kernelType (sqDist (x1 i) (x2 j) l) *
         (-(2 * (x1 i c - x2 j c) / l ^ 2)) +
       (if cfg.addLinearKernel then x1 i c else 0))

/-- Euclidean norm of a point, as `jnp.linalg.norm` computes it. -/
noncomputable def euclNorm {d : ℕ} (u : Point d) : ℝ :=
  Real.sqrt (∑ c, u c ^ 2)

/-- Reference squared-exponential kernel from
`src/tests/test_score_estimation.py` (`TestGramMatrixMixin.rbf_kernel`):
`exp(−‖(x1−x2)/l‖² / 2)`. -/
noncomputable def rbf_kernel {d : ℕ} (x1 x2 : Point d) (l : ℝ) : ℝ :=
  Real.exp (-euclNorm (fun c => (x1 c - x2 c) / l) ^ 2 / 2)

/-- Reference inverse-multiquadric kernel from
`src/tests/test_score_estimation.py` (`TestGramMatrixMixin.imq_kernel`):
`rsqrt(1 + ‖(x1−x2)/l‖²)`. -/
noncomputable def imq_kernel {d : ℕ} (x1 x2 : Point d) (l : ℝ) : ℝ :=
  1 / Real.sqrt (1 + euclNorm (fun c => (x1 c - x2 c) / l) ^ 2)

/-- Reference scalar kernel of the tests
(`kernel` closures in `TestGramMatrixMixin`): the configured family's
kernel plus the dot product when linear augmentation is enabled. -/
noncomputable def test_kernel {d : ℕ} (kt : KernelType) (add_linear : Bool)
    (x1 x2 : Point d) (l : ℝ) : ℝ :=
  (match kt with
   | KernelType.se => rbf_kernel x1 x2 l
   | KernelType.imq => imq_kernel x1 x2 l) +
    (if add_linear then dotProd x1 x2 else 0)

lemma sqDist_nonneg {d : ℕ} (x y : Point d) (l : ℝ) : 0 ≤ sqDist x y l :=
  Finset.sum_nonneg fun _ _ => sq_nonneg _

lemma euclNorm_sq {d : ℕ} (u : Point d) : euclNorm u ^ 2 = ∑ c, u c ^ 2 :=
  Real.sq_sqrt (Finset.sum_nonneg fun _ _ => sq_nonneg _)

lemma euclNorm_sq_diff {d : ℕ} (x y : Point d) (l : ℝ) :
    euclNorm (fun c => (x c - y c) / l) ^ 2 = sqDist x y l :=
  euclNorm_sq _

/-- C1: for every pair of point sets and every positive length scale,
`gram` returns the matrix whose `[i,j]` entry is the configured scalar
kernel evaluated at `(x1[i], x2[j])` — `exp(−r²/2)` for `se`,
`(1+r²)^(−1/2)` for `imq`, with `r² = ‖(x−y)/l‖²` — plus the dot product
`x1[i]·x2[j]` when linear augmentation is enabled, for arbitrary
`n`, `m`, `d`. -/
theorem gram_matches_test_kernel {d n m : ℕ} (cfg : Config)
    (x1 : Fin n → Point d) (x2 : Fin m → Point d) (l : ℝ) (_hl : 0 < l)
    (i : Fin n) (j : Fin m) :
    gram cfg x1 x2 l i j =
      test_kernel cfg.kernelType cfg.addLinearKernel (x1 i) (x2 j) l := by
  unfold gram kernelFun test_kernel
  cases cfg.kernelType with
  | se =>
      simp only [scalarKernel, rbf_kernel, euclNorm_sq_diff]
  | imq =>
      simp only [scalarKernel, imq_kernel, euclNorm_sq_diff]

/-- Witness for C1 at a concrete input. -/
theorem gram_matches_test_kernel_witness :
    0 < (1 : ℝ) ∧
      gram ⟨KernelType.se, false⟩
          (fun _ : Fin 1 => fun _ : Fin 1 => (0 : ℝ))
          (fun _ : Fin 1 => fun _ : Fin 1 => (0 : ℝ)) 1 0 0 =
        test_kernel KernelType.se false
          (fun _ : Fin 1 => (0 : ℝ)) (fun _ : Fin 1 => (0 : ℝ)) 1 :=
  ⟨one_pos,
   gram_matches_test_kernel ⟨KernelType.se, false⟩
     (fun _ => fun _ => 0) (fun _ => fun _ => 0) 1 one_pos 0 0⟩

lemma sqDist_comm {d : ℕ} (x y : Point d) (l : ℝ) :
    sqDist x y l = sqDist y x l := by
  unfold sqDist
  refine Finset.sum_congr rfl fun c _ => ?_
  ring

lemma dotProd_comm {d : ℕ} (x y : Point d) : dotProd x y = dotProd y x := by
  unfold dotProd
  refine Finset.sum_congr rfl fun c _ => ?_
  ring

/-- Derivative of the scaled squared distance in the `c`-th coordinate of
its first argument: `∂r²/∂x_c = 2(x_c−y_c)/l²`. -/
lemma sqDist_update_hasDerivAt {d : ℕ} (x y : Point d) (l : ℝ) (c : Fin d) :
    HasDerivAt (fun t => sqDist (Function.update x c t) y l)
      (2 * (x c - y c) / l ^ 2) (x c) := by
  have h : ∀ c' ∈ Finset.univ,
      HasDerivAt (fun t => ((Function.update x c t c' - y c') / l) ^ 2)
        (if c' = c then 2 * (x c - y c) / l ^ 2 else 0) (x c) := by
    intro c' _
    by_cases hc : c' = c
    · subst hc
      rw [if_pos rfl]
      have h1 : HasDerivAt (fun t : ℝ => (t - y c') / l) (1 / l) (x c') := by
        simpa using (((hasDerivAt_id (x c')).sub_const (y c')).div_const l)
      have h2 := h1.pow 2
      have heq : (fun t : ℝ => ((t - y c') / l) ^ 2) =
          fun t => ((Function.update x c' t c' - y c') / l) ^ 2 := by
        funext t
        rw [Function.update_same]
      rw [heq] at h2
      convert h2 using 1
      ring
    · rw [if_neg hc]
      have heq : (fun t : ℝ => ((Function.update x c t c' - y c') / l) ^ 2) =
          fun _ => ((x c' - y c') / l) ^ 2 := by
        funext t
        rw [Function.update_noteq hc]
      rw [heq]
      exact hasDerivAt_const _ _
  have hsum := HasDerivAt.sum h
  have hval : (∑ c' : Fin d, if c' = c then 2 * (x c - y c) / l ^ 2 else 0) =
      2 * (x c - y c) / l ^ 2 := by
    simp
  rw [hval] at hsum
  exact hsum

/-- Derivative of the dot product in the `c`-th coordinate of its first
argument: `∂(x·y)/∂x_c = y_c`. -/
lemma dotProd_update_hasDerivAt {d : ℕ} (x y : Point d) (c : Fin d) :
    HasDerivAt (fun t => dotProd (Function.update x c t) y) (y c) (x c) := by
  have h : ∀ c' ∈ Finset.univ,
      HasDerivAt (fun t => Function.update x c t c' * y c')
        (if c' = c then y c else 0) (x c) := by
    intro c' _
    by_cases hc : c' = c
    · subst hc
      rw [if_pos rfl]
      have h1 : HasDerivAt (fun t : ℝ => t * y c') (y c') (x c') := by
        simpa using (hasDerivAt_id (x c')).mul_const (y c')
      have heq : (fun t : ℝ => t * y c') =
          fun t => Function.update x c' t c' * y c' := by
        funext t
        rw [Function.update_same]
      rw [heq] at h1
      exact h1
    · rw [if_neg hc]
      have heq : (fun t : ℝ => Function.update x c t c' * y c') =
          fun _ => x c' * y c' := by
        funext t
        rw [Function.update_noteq hc]
      rw [heq]
      exact hasDerivAt_const _ _
  have hsum := HasDerivAt.sum h
  have hval : (∑ c' : Fin d, if c' = c then y c else 0) = y c := by
    simp
  rw [hval] at hsum
  exact hsum

/-- Chain rule through the scalar kernel: the derivative of
`k(sqDist(update x c t, y, l))` at `t = x_c` is
`k'(r²) · 2(x_c−y_c)/l²`. -/
lemma scalarKernel_update_hasDerivAt {d : ℕ} (kt : KernelType)
    (x y : Point d) (l : ℝ) (c : Fin d) :
    HasDerivAt (fun t => scalarKernel kt (sqDist (Function.update x c t) y l))
      (scalarKernelDeriv kt (sqDist x y l) * (2 * (x c - y c) / l ^ 2)) (x c) := by
  have hs := sqDist_update_hasDerivAt x y l c
  have hx0 : sqDist (Function.update x c (x c)) y l = sqDist x y l := by
    rw [Function.update_eq_self]
  cases kt with
  | se =>
      have h1 := ((hs.neg.div_const 2).exp)
      simp only [scalarKernel, scalarKernelDeriv]
      have heq : (fun t => Real.exp (-sqDist (Function.update x c t) y l / 2)) =
          fun t => Real.exp (-(sqDist (Function.update x c t) y l) / 2) := by
        funext t; ring_nf
      rw [heq]
      convert h1 using 1
      rw [hx0]
      ring
  | imq =>
      have hpos : (0 : ℝ) < 1 + sqDist x y l :=
        lt_of_lt_of_le one_pos (le_add_of_nonneg_right (sqDist_nonneg x y l))
      have hne : 1 + sqDist (Function.update x c (x c)) y l ≠ 0 := by
        rw [hx0]; exact ne_of_gt hpos
      have h1 := hs.const_add 1
      have h2 := h1.sqrt hne
      have hsqrt_ne : Real.sqrt (1 + sqDist (Function.update x c (x c)) y l) ≠ 0 := by
        rw [hx0]
        exact ne_of_gt (Real.sqrt_pos.mpr hpos)
      have h3 := h2.inv hsqrt_ne
      simp only [scalarKernel, scalarKernelDeriv]
      have heq : (fun t => 1 / Real.sqrt (1 + sqDist (Function.update x c t) y l)) =
          fun t => (Real.sqrt (1 + sqDist (Function.update x c t) y l))⁻¹ := by
        funext t; rw [one_div]
      rw [heq]
      convert h3 using 1
      rw [hx0]
      rw [Real.sq_sqrt (le_of_lt hpos)]
      have hs_ne : Real.sqrt (1 + sqDist x y l) ≠ 0 :=
        ne_of_gt (Real.sqrt_pos.mpr hpos)
      field_simp
      ring

/-- Derivative of the full configured kernel in the `c`-th coordinate of
its first argument. -/
lemma kernelFun_update_left_hasDerivAt {d : ℕ} (cfg : Config)
    (x y : Point d) (l : ℝ) (c : Fin d) :
    HasDerivAt (fun t => kernelFun cfg (Function.update x c t) y l)
      (scalarKernelDeriv cfg.kernelType (sqDist x y l) * (2 * (x c - y c) / l ^ 2) +
        (if cfg.addLinearKernel then y c else 0)) (x c) := by
  have hker := scalarKernel_update_hasDerivAt cfg.kernelType x y l c
  unfold kernelFun
  cases hb : cfg.addLinearKernel with
  | true =>
      simp only [if_pos]
      exact hker.add (dotProd_update_hasDerivAt x y c)
  | false =>
      simp only [if_neg, Bool.false_eq_true, if_false, add_zero]
      exact hker

/-- Derivative of the full configured kernel in the `c`-th coordinate of
its second argument, by symmetry of `sqDist` and `dotProd`. -/
lemma kernelFun_update_right_hasDerivAt {d : ℕ} (cfg : Config)
    (x y : Point d) (l : ℝ) (c : Fin d) :
    HasDerivAt (fun t => kernelFun cfg x (Function.update y c t) l)
      (scalarKernelDeriv cfg.kernelType (sqDist x y l) * (-(2 * (x c - y c) / l ^ 2)) +
        (if cfg.addLinearKernel then x c else 0)) (y c) := by
  have h := kernelFun_update_left_hasDerivAt cfg y x l c
  have heq : (fun t => kernelFun cfg x (Function.update y c t) l) =
      fun t => kernelFun cfg (Function.update y c t) x l := by
    funext t
    unfold kernelFun
    rw [sqDist_comm, dotProd_comm]
  rw [heq]
  convert h using 1
  rw [sqDist_comm x y]
  ring_nf

/-- C2: for every supported kernel type, both settings of the
linear-augmentation flag, and every pair of point sets of matching
feature dimension, `grad_gram` returns `(K, G1, G2)` where `K` is the
Gram matrix and `G1[i,j]`/`G2[i,j]` are the exact gradients of the
scalar kernel `k(x1[i], x2[j])` with respect to the first and second
argument — the idealized statement of agreement with an automatically
differentiated reference of the same scalar kernel (exact equality
implies agreement within any positive tolerance). -/
theorem grad_gram_matches_derivative {d n m : ℕ} (cfg : Config)
    (x1 : Fin n → Point d) (x2 : Fin m → Point d) (l : ℝ)
    (i : Fin n) (j : Fin m) (c : Fin d) :
    (grad_gram cfg x1 x2 l).1 i j = gram cfg x1 x2 l i j ∧
    HasDerivAt (fun t => kernelFun cfg (Function.update (x1 i) c t) (x2 j) l)
      ((grad_gram cfg x1 x2 l).2.1 i j c) (x1 i c) ∧
    HasDerivAt (fun t => kernelFun cfg (x1 i) (Function.update (x2 j) c t) l)
      ((grad_gram cfg x1 x2 l).2.2 i j c) (x2 j c) := by
  refine ⟨rfl, ?_, ?_⟩
  · exact kernelFun_update_left_hasDerivAt cfg (x1 i) (x2 j) l c
  · exact kernelFun_update_right_hasDerivAt cfg (x1 i) (x2 j) l c

/-- C6: for the SE and IMQ kernels with linear augmentation disabled,
the gradient tensors returned by `grad_gram` satisfy
`G2[i,j] = −G1[i,j]` elementwise, for every pair of input point sets of
matching feature dimension. -/
theorem grad_gram_translation_antisymmetry {d n m : ℕ} (kt : KernelType)
    (x1 : Fin n → Point d) (x2 : Fin m → Point d) (l : ℝ)
    (i : Fin n) (j : Fin m) (c : Fin d) :
    (grad_gram ⟨kt, false⟩ x1 x2 l).2.2 i j c =
      -((grad_gram ⟨kt, false⟩ x1 x2 l).2.1 i j c) := by
  simp only [grad_gram, Bool.false_eq_true, if_false]
  ring

/-- Fatal configuration errors of the library (spec §7). -/
inductive ConfigurationError where
  | unknownKernelType : ConfigurationError
  | invalidTruncation : ConfigurationError
  | nonPositiveHyperparameter : ConfigurationError
deriving DecidableEq

/-- SSGE's spectrum-truncation policy: exactly one of a fixed eigenvalue
count or a cumulative-mass threshold. -/
inductive TruncationPolicy where
  | count : ℕ → TruncationPolicy
  | threshold : ℝ → TruncationPolicy

/-- Configuration of the SSGE estimator. -/
structure SSGEConfig where
  eta : ℝ
  addLinearKernel : Bool
  truncation : TruncationPolicy

/-- Modelled from the spec: the SSGE constructor of
`score_estimation/ssge.py` (absent from `src/`) validates its two
mutually exclusive spectrum-truncation options; supplying both or
neither is a `ConfigurationError`. -/
def mkSSGE (eta : ℝ) (add_linear_kernel : Bool)
    (n_eigen_values : Option ℕ) (n_eigen_threshold : Option ℝ) :
    Except ConfigurationError SSGEConfig :=
  match n_eigen_values, n_eigen_threshold with
  | some k, none => Except.ok ⟨eta, add_linear_kernel, TruncationPolicy.count k⟩
  | none, some t => Except.ok ⟨eta, add_linear_kernel, TruncationPolicy.threshold t⟩
  | some _, some _ => Except.error ConfigurationError.invalidTruncation
  | none, none => Except.error ConfigurationError.invalidTruncation

/-- C4: constructing SSGE with both truncation options supplied, or with
neither supplied, fails with a `ConfigurationError`; constructing it with
exactly one of the two succeeds. -/
theorem ssge_truncation_exactly_one (eta : ℝ) (al : Bool) (k : ℕ) (t : ℝ) :
    mkSSGE eta al (some k) (some t) =
        Except.error ConfigurationError.invalidTruncation ∧
      mkSSGE eta al none none =
        Except.error ConfigurationError.invalidTruncation ∧
      mkSSGE eta al (some k) none =
        Except.ok ⟨eta, al, TruncationPolicy.count k⟩ ∧
      mkSSGE eta al none (some t) =
        Except.ok ⟨eta, al, TruncationPolicy.threshold t⟩ :=
  ⟨rfl, rfl, rfl, rfl⟩

/-- Modelled from the spec: the `GramMatrixMixin` constructor of
`score_estimation/abstract.py` (absent from `src/`) accepts exactly the
kernel identifiers `"se"` and `"imq"` and rejects every other
identifier with a `ConfigurationError`. -/
def mkGramMatrixMixin (kernel_type : String) (add_linear_kernel : Bool) :
    Except ConfigurationError Config :=
  if kernel_type = "se" then Except.ok ⟨KernelType.se, add_linear_kernel⟩
  else if kernel_type = "imq" then Except.ok ⟨KernelType.imq, add_linear_kernel⟩
  else Except.error ConfigurationError.unknownKernelType

/-- C7: the scalar kernel families selectable via `kernel_type` are
exactly `"se"` and `"imq"`; any other kernel identifier fails with a
`ConfigurationError`, while `"se"` and `"imq"` succeed. -/
theorem kernel_type_se_imq_only (s : String) (al : Bool) :
    (mkGramMatrixMixin s al = Except.error ConfigurationError.unknownKernelType ↔
        s ≠ "se" ∧ s ≠ "imq") ∧
      mkGramMatrixMixin "se" al = Except.ok ⟨KernelType.se, al⟩ ∧
      mkGramMatrixMixin "imq" al = Except.ok ⟨KernelType.imq, al⟩ := by
  refine ⟨?_, rfl, rfl⟩
  unfold mkGramMatrixMixin
  split_ifs with h1 h2 <;> simp_all

/-- The Landweber accuracy check of
`src/tests/test_score_estimation.py` (`TestLandweber`, lines 206–222):
the numeric score estimate is always returned, and when the mean cosine
distance to the true score exceeds 0.05 a warning flag is raised instead
of a fatal assertion error. -/
noncomputable def landweber_test_check {α : Type} (score_estimate : α)
    (cos_dist : ℝ) : Except String (α × Bool) :=
  if 0.05 < cos_dist then Except.ok (score_estimate, true)
  else Except.ok (score_estimate, false)

/-- C8: under the Landweber test settings, when the mean cosine distance
exceeds 0.05 the check emits a warning (flag `true`) and still returns
the numeric score estimate; it never produces a fatal error. -/
theorem landweber_warns_instead_of_failing {α : Type} (est : α) (c : ℝ) :
    (∃ w : Bool, landweber_test_check est c = Except.ok (est, w)) ∧
      (landweber_test_check est c = Except.ok (est, true) ↔ 0.05 < c) := by
  unfold landweber_test_check
  split_ifs with hc
  · exact ⟨⟨true, rfl⟩, by simp [hc]⟩
  · exact ⟨⟨false, rfl⟩, by simp [hc]⟩

/-- Modelled from the spec: the Gaussian mixture component of
`score_estimation/kde.py` (absent from `src/`).  One kernel of the KDE
mixture: the Gaussian density with mean `x` and bandwidth `h` evaluated
at `q`, `exp(−‖q−x‖²/(2h²)) / (h√(2π))^d`. -/
noncomputable def kdeComponent {d : ℕ} (h : ℝ) (x q : Point d) : ℝ :=
  Real.exp (-(∑ c, (q c - x c) ^ 2) / (2 * h ^ 2)) /
    (h * Real.sqrt (2 * Real.pi)) ^ d

/-- Modelled from the spec: the KDE mixture density — the average of the
per-sample Gaussian components. -/
noncomputable def kdeDensity {d n : ℕ} (h : ℝ) (samples : Fin n → Point d)
    (q : Point d) : ℝ :=
  (∑ i, kdeComponent h (samples i) q) / n

/-- Modelled from the spec: `KDE.density_estimates_log_prob` of
`score_estimation/kde.py` (absent from `src/`): the log of the
normalized mixture density at each query. -/
noncomputable def density_estimates_log_prob {d n : ℕ} (h : ℝ)
    (samples : Fin n → Point d) (q : Point d) : ℝ :=
  Real.log (kdeDensity h samples q)

lemma kdeComponent_pos {d : ℕ} {h : ℝ} (hh : 0 < h) (x q : Point d) :
    0 < kdeComponent h x q := by
  unfold kdeComponent
  have hs : (0 : ℝ) < Real.sqrt (2 * Real.pi) :=
    Real.sqrt_pos.mpr (by positivity)
  positivity

lemma kdeDensity_pos {d n : ℕ} {h : ℝ} (hh : 0 < h) (hn : 0 < n)
    (samples : Fin n → Point d) (q : Point d) :
    0 < kdeDensity h samples q := by
  unfold kdeDensity
  refine div_pos ?_ (by exact_mod_cast hn)
  refine Finset.sum_pos (fun i _ => kdeComponent_pos hh _ _) ?_
  exact Finset.univ_nonempty_iff.mpr ⟨⟨0, hn⟩⟩

/-- For one-dimensional points, a KDE component is exactly the Gaussian
probability density with mean `x 0` and variance `h²`. -/
lemma kdeComponent_one_dim {h : ℝ} (hh : 0 < h) (x : Point 1) :
    (fun t : ℝ => kdeComponent h x (fun _ => t)) =
      ProbabilityTheory.gaussianPDFReal (x 0) ⟨h ^ 2, sq_nonneg h⟩ := by
  funext t
  simp only [kdeComponent, ProbabilityTheory.gaussianPDFReal,
    Fin.sum_univ_one, pow_one, NNReal.coe_mk]
  rw [Real.sqrt_mul (by positivity : (0 : ℝ) ≤ 2 * Real.pi),
    Real.sqrt_sq hh.le]
  ring

/-- C5: for a 1-D sample set and a fixed positive bandwidth,
exponentiating `density_estimates_log_prob` and integrating over the
whole line yields exactly 1: the KDE mixture density is normalized
(the idealized statement that the numerical quadrature of the test
approximates within 1%). -/
theorem kde_integrates_to_one {n : ℕ} (h : ℝ) (samples : Fin n → Point 1)
    (hh : 0 < h) (hn : 0 < n) :
    (∫ t : ℝ, Real.exp (density_estimates_log_prob h samples fun _ => t)) = 1 := by
  have hv : (⟨h ^ 2, sq_nonneg h⟩ : NNReal) ≠ 0 := by
    refine fun hc => absurd (congrArg NNReal.toReal hc) ?_
    simpa using (pow_pos hh 2).ne'
  have hexp : (fun t : ℝ => Real.exp (density_estimates_log_prob h samples fun _ => t)) =
      fun t : ℝ => kdeDensity h samples fun _ => t := by
    funext t
    exact Real.exp_log (kdeDensity_pos hh hn samples _)
  rw [hexp]
  have hcomp : ∀ i : Fin n,
      (fun t : ℝ => kdeComponent h (samples i) (fun _ => t)) =
        ProbabilityTheory.gaussianPDFReal (samples i 0) ⟨h ^ 2, sq_nonneg h⟩ :=
    fun i => kdeComponent_one_dim hh (samples i)
  have hdensity : (fun t : ℝ => kdeDensity h samples fun _ => t) =
      fun t : ℝ =>
        (∑ i, ProbabilityTheory.gaussianPDFReal (samples i 0) ⟨h ^ 2, sq_nonneg h⟩ t) / n := by
    funext t
    unfold kdeDensity
    congr 1
    refine Finset.sum_congr rfl fun i _ => ?_
    exact congrFun (hcomp i) t
  rw [hdensity]
  rw [MeasureTheory.integral_div]
  rw [MeasureTheory.integral_finset_sum Finset.univ
    (fun i _ => ProbabilityTheory.integrable_gaussianPDFReal _ _)]
  have hone : ∀ i : Fin n, (∫ t : ℝ,
      ProbabilityTheory.gaussianPDFReal (samples i 0) ⟨h ^ 2, sq_nonneg h⟩ t) = 1 :=
    fun i => ProbabilityTheory.integral_gaussianPDFReal_eq_one (samples i 0) hv
  rw [Finset.sum_congr rfl fun i _ => hone i]
  simp only [Finset.sum_const, Finset.card_univ, Fintype.card_fin, nsmul_eq_mul, mul_one]
  exact div_self (Nat.cast_ne_zero.mpr hn.ne')

/-- Witness for C5 at a concrete input. -/
theorem kde_integrates_to_one_witness :
    0 < (1 : ℝ) ∧ 0 < 1 ∧
      (∫ t : ℝ,
        Real.exp (density_estimates_log_prob 1 (fun _ : Fin 1 => fun _ : Fin 1 => (0 : ℝ))
          fun _ => t)) = 1 :=
  ⟨one_pos, Nat.one_pos,
   kde_integrates_to_one 1 (fun _ => fun _ => 0) one_pos Nat.one_pos⟩

/-- Modelled from the spec: the default bandwidth of the KDE
constructor (`score_estimation/kde.py`, absent from `src/`); the spec
only requires that a fixed positive default exists when the caller
supplies none. -/
noncomputable def kdeDefaultBandwidth : ℝ := 1

/-- Configuration of the KDE estimator. -/
structure KDEConfig where
  bandwidth : ℝ

/-- Modelled from the spec: the KDE constructor takes an optional
bandwidth and falls back to the fixed default, so `KDE()` with no
arguments is valid. -/
noncomputable def mkKDE (bandwidth : Option ℝ) : KDEConfig :=
  ⟨bandwidth.getD kdeDefaultBandwidth⟩

/-- Modelled from the spec: `KDE.estimate_gradients_s_x` of
`score_estimation/kde.py` (absent from `src/`): the gradient of the
log of the mixture density at each query, which for a Gaussian mixture
is the component-weighted average of `(x_i − q)/h²`. -/
noncomputable def estimate_gradients_s_x {d n m : ℕ} (h : ℝ)
    (queries : Fin m → Point d) (samples : Fin n → Point d) :
    Fin m → Point d :=
  fun j c =>
    (∑ i, kdeComponent h (samples i) (queries j) *
        ((samples i c - queries j c) / h ^ 2)) /
      (∑ i, kdeComponent h (samples i) (queries j))

/-- Derivative of the inner squared-distance sum of a KDE component in
the `c`-th query coordinate. -/
lemma kdeSumSq_update_hasDerivAt {d : ℕ} (x q : Point d) (c : Fin d) :
    HasDerivAt (fun t => ∑ c', (Function.update q c t c' - x c') ^ 2)
      (2 * (q c - x c)) (q c) := by
  have hs := sqDist_update_hasDerivAt q x 1 c
  have heq : (fun t => sqDist (Function.update q c t) x 1) =
      fun t => ∑ c', (Function.update q c t c' - x c') ^ 2 := by
    funext t
    unfold sqDist
    refine Finset.sum_congr rfl fun c' _ => ?_
    rw [div_one]
  rw [heq] at hs
  convert hs using 1
  norm_num

/-- Derivative of a KDE component in the `c`-th query coordinate:
`∂/∂q_c comp = comp · (x_c − q_c)/h²`. -/
lemma kdeComponent_update_hasDerivAt {d : ℕ} (h : ℝ) (x q : Point d) (c : Fin d) :
    HasDerivAt (fun t => kdeComponent h x (Function.update q c t))
      (kdeComponent h x q * ((x c - q c) / h ^ 2)) (q c) := by
  have hS := kdeSumSq_update_hasDerivAt x q c
  have h1 := (hS.neg.div_const (2 * h ^ 2)).exp
  have h2 := h1.div_const ((h * Real.sqrt (2 * Real.pi)) ^ d)
  unfold kdeComponent
  convert h2 using 1
  rw [Function.update_eq_self]
  ring

/-- Derivative of the KDE mixture density in the `c`-th query
coordinate. -/
lemma kdeDensity_update_hasDerivAt {d n : ℕ} (h : ℝ)
    (samples : Fin n → Point d) (q : Point d) (c : Fin d) :
    HasDerivAt (fun t => kdeDensity h samples (Function.update q c t))
      ((∑ i, kdeComponent h (samples i) q * ((samples i c - q c) / h ^ 2)) / n)
      (q c) := by
  have hsum := HasDerivAt.sum
    (fun i (_ : i ∈ Finset.univ) => kdeComponent_update_hasDerivAt h (samples i) q c)
  have := hsum.div_const (n : ℝ)
  unfold kdeDensity
  exact this

/-- C10: KDE can be constructed with no bandwidth argument: the default
bandwidth is positive, and under it the mixture density is strictly
positive at every query (so `density_estimates_log_prob` is the log of a
positive number) and `estimate_gradients_s_x` is exactly the gradient of
the log-density in every query coordinate, for any sample and query sets
of matching feature dimension. -/
theorem kde_default_construction_well_defined {d n m : ℕ} (hn : 0 < n)
    (queries : Fin m → Point d) (samples : Fin n → Point d)
    (j : Fin m) (c : Fin d) :
    0 < (mkKDE none).bandwidth ∧
      0 < kdeDensity (mkKDE none).bandwidth samples (queries j) ∧
      HasDerivAt
        (fun t => density_estimates_log_prob (mkKDE none).bandwidth samples
          (Function.update (queries j) c t))
        (estimate_gradients_s_x (mkKDE none).bandwidth queries samples j c)
        (queries j c) := by
  have hh : 0 < (mkKDE none).bandwidth := one_pos
  have hdens : 0 < kdeDensity (mkKDE none).bandwidth samples (queries j) :=
    kdeDensity_pos hh hn samples _
  refine ⟨hh, hdens, ?_⟩
  have hD := kdeDensity_update_hasDerivAt (mkKDE none).bandwidth samples (queries j) c
  have hDne : kdeDensity (mkKDE none).bandwidth samples
      (Function.update (queries j) c (queries j c)) ≠ 0 := by
    rw [Function.update_eq_self]
    exact hdens.ne'
  have hlog := hD.log hDne
  unfold density_estimates_log_prob
  convert hlog using 1
  rw [Function.update_eq_self]
  unfold estimate_gradients_s_x kdeDensity
  have hBpos : 0 < ∑ i, kdeComponent (mkKDE none).bandwidth (samples i) (queries j) := by
    refine Finset.sum_pos (fun i _ => kdeComponent_pos hh _ _) ?_
    exact Finset.univ_nonempty_iff.mpr ⟨⟨0, hn⟩⟩
  have hnne : (n : ℝ) ≠ 0 := Nat.cast_ne_zero.mpr hn.ne'
  rw [div_div_div_comm, div_self hnne, div_one]

/-- Witness for C10 at a concrete input. -/
theorem kde_default_construction_well_defined_witness :
    0 < 1 ∧
      (0 < (mkKDE none).bandwidth ∧
        0 < kdeDensity (mkKDE none).bandwidth
          (fun _ : Fin 1 => fun _ : Fin 1 => (0 : ℝ))
          ((fun _ : Fin 1 => fun _ : Fin 1 => (0 : ℝ)) 0) ∧
        HasDerivAt
          (fun t => density_estimates_log_prob (mkKDE none).bandwidth
            (fun _ : Fin 1 => fun _ : Fin 1 => (0 : ℝ))
            (Function.update ((fun _ : Fin 1 => fun _ : Fin 1 => (0 : ℝ)) 0) 0 t))
          (estimate_gradients_s_x (mkKDE none).bandwidth
            (fun _ : Fin 1 => fun _ : Fin 1 => (0 : ℝ))
            (fun _ : Fin 1 => fun _ : Fin 1 => (0 : ℝ)) 0 0)
          ((fun _ : Fin 1 => fun _ : Fin 1 => (0 : ℝ)) 0 0)) :=
  ⟨Nat.one_pos,
   kde_default_construction_well_defined Nat.one_pos
     (fun _ => fun _ => 0) (fun _ => fun _ => 0) 0 0⟩

end ScoreEstimation
